import Mathlib

/-!
Shallow embedding of `src/examples/violations.py` (gleamaint example module).

The Python module has two independent units:

* `UserService`: an in-memory record store.  Each instance holds a mutable
  list `users` and a mutable dict `config` (initialised to `{"debug": True}`).
  Two process-wide globals are shared by all instances: an integer `counter`
  (initially `0`) used by `generate_id`, and a dict `cache` mirrored by
  `update_config`.
* `process_data`: doubles each item of a sequence, catching any per-item
  exception, logging it and skipping the item.

Python dicts are modelled as association lists with Python 3.7+ semantics
(assigning an existing key updates it in place, a new key is appended).
Python values that appear in the module are modelled by `PyVal`; the stateful
methods are modelled by explicit state passing, and the raised `ValueError`
by an `Except.error` result paired with the unchanged state (the `raise` in
`add_user` happens before any mutation).
-/

/-- Python values occurring in the module: ints, bools (`True` is the initial
`debug` config value), strings, and `None` (the canonical value on which
`item * 2` raises a `TypeError`). -/
inductive PyVal where
  | int (n : Int)
  | bool (b : Bool)
  | str (s : String)
  | noneV
  deriving DecidableEq, Repr

/-- A user record, as built by `add_user`:
`{"name": name, "age": age, "id": self.generate_id()}`. -/
structure User where
  name : String
  age : Int
  id : Nat
  deriving DecidableEq, Repr

/-- A Python dict `str -> value`, as an association list.  The list order is
the dict's insertion order. -/
abbrev Dict := List (String × PyVal)

/-- `d[k] = v` for a Python dict: an existing key keeps its position and gets
the new value, a fresh key is appended at the end. -/
def dictSet (d : Dict) (k : String) (v : PyVal) : Dict :=
  match d with
  | [] => [(k, v)]
  | (k', v') :: rest => if k' = k then (k, v) :: rest else (k', v') :: dictSet rest k v

/-- `d.get(k)` / `d[k]` lookup for a Python dict. -/
def dictGet (d : Dict) (k : String) : Option PyVal :=
  match d with
  | [] => none
  | (k', v') :: rest => if k' = k then some v' else dictGet rest k

/-- The per-instance state of a `UserService`: `self.users` and `self.config`. -/
structure Service where
  users : List User
  config : Dict
  deriving DecidableEq, Repr

/-- `UserService.__init__`: empty users list, config `{"debug": True}`. -/
def Service.init : Service :=
  { users := [], config := [("debug", PyVal.bool true)] }

/-- `UserService.add_user(name, age)` with the process-wide `counter` passed
explicitly.  On `age < 0` it raises `ValueError("Age cannot be negative")`
before touching any state, modelled as an `Except.error` result together with
the unchanged service and counter.  On success `generate_id` increments the
counter and the record is appended to `self.users`. -/
def add_user (s : Service) (ctr : Nat) (name : String) (age : Int) :
    Except String User × Service × Nat :=
  if age < 0 then
    (Except.error "Age cannot be negative", s, ctr)
  else
    let u : User := { name := name, age := age, id := ctr + 1 }
    (Except.ok u, { s with users := s.users ++ [u] }, ctr + 1)

/-- The loop body of `find_user`: scan the list, return the first record whose
`"name"` field equals the argument. -/
def findFirst (l : List User) (name : String) : Option User :=
  match l with
  | [] => none
  | u :: rest => if u.name = name then some u else findFirst rest name

/-- `UserService.find_user(name)`: first matching record or `None`. -/
def find_user (s : Service) (name : String) : Option User :=
  findFirst s.users name

/-- `UserService.update_config(key, value)` with the process-wide `cache`
passed explicitly: sets the key in `self.config` and mirrors it into the
global `cache`. -/
def update_config (s : Service) (cache : Dict) (key : String) (value : PyVal) :
    Service × Dict :=
  ({ s with config := dictSet s.config key value }, dictSet cache key value)

/-- Python `item * 2` on the modelled values.  Ints and bools are numeric
(`True * 2 == 2`), a string is repeated (`"ab" * 2 == "abab"`), and `None * 2`
raises a `TypeError`. -/
def pyMul2 : PyVal → Except String PyVal
  | PyVal.int n => Except.ok (PyVal.int (n * 2))
  | PyVal.bool b => Except.ok (PyVal.int (if b then 2 else 0))
  | PyVal.str s => Except.ok (PyVal.str (s ++ s))
  | PyVal.noneV => Except.error "unsupported operand type for *"

/-- The `logging.error(f"Failed to process {item}: {e}")` message. -/
def logEntry (item : PyVal) (e : String) : String :=
  "Failed to process " ++ reprStr item ++ ": " ++ e

/-- `process_data(items)`: double each item; on a per-item failure append a
log message and continue with the next item.  Returns the results list and
the list of diagnostic log messages, both in input order. -/
def process_data : List PyVal → List PyVal × List String
  | [] => ([], [])
  | item :: rest =>
    match pyMul2 item with
    | Except.ok r =>
      let p := process_data rest
      (r :: p.1, p.2)
    | Except.error e =>
      let p := process_data rest
      (p.1, logEntry item e :: p.2)

/-! ### Whole-process state

All `UserService` instances alive in one process share the globals `counter`
and `cache`.  `SysState` collects the instances and the globals; `Reachable`
is the set of states a process can be in after any sequence of constructor
calls and method calls (`find_user` is read-only and contributes no step). -/

/-- The whole-process state: every constructed `UserService` instance plus
the process-wide `cache` and `counter` globals. -/
structure SysState where
  stores : List Service
  cache : Dict
  counter : Nat
  deriving DecidableEq, Repr

/-- The initial process state: no instances, `cache = {}`, `counter = 0`. -/
def SysState.init : SysState :=
  { stores := [], cache := [], counter := 0 }

/-- `UserService()`: construct a fresh instance. -/
def sysNewStore (st : SysState) : SysState :=
  { st with stores := st.stores ++ [Service.init] }

/-- Call `add_user` on the `i`-th instance (no-op on an out-of-range index). -/
def sysAddUser (st : SysState) (i : Nat) (name : String) (age : Int) : SysState :=
  match st.stores[i]? with
  | none => st
  | some s =>
    let r := add_user s st.counter name age
    { st with stores := st.stores.set i r.2.1, counter := r.2.2 }

/-- Call `update_config` on the `i`-th instance (no-op on an out-of-range
index). -/
def sysUpdateConfig (st : SysState) (i : Nat) (key : String) (value : PyVal) :
    SysState :=
  match st.stores[i]? with
  | none => st
  | some s =>
    let r := update_config s st.cache key value
    { st with stores := st.stores.set i r.1, cache := r.2 }

/-- States reachable from process start by constructing instances and calling
the mutating methods. -/
inductive Reachable : SysState → Prop where
  | init : Reachable SysState.init
  | newStore {st} : Reachable st → Reachable (sysNewStore st)
  | addUser {st} (i : Nat) (name : String) (age : Int) :
      Reachable st → Reachable (sysAddUser st i name age)
  | updateConfig {st} (i : Nat) (key : String) (value : PyVal) :
      Reachable st → Reachable (sysUpdateConfig st i key value)

/-- All record ids in the process, store by store in insertion order. -/
def allIds (st : SysState) : List Nat :=
  st.stores.flatMap (fun s => s.users.map User.id)

/-- The record-store invariant: every stored record has a nonnegative age;
ids are globally unique, positive, bounded by the shared counter, and within
each store strictly increasing in insertion (= creation) order. -/
def StoreInv (st : SysState) : Prop :=
  (∀ s ∈ st.stores, ∀ u ∈ s.users, 0 ≤ u.age) ∧
  (allIds st).Nodup ∧
  (∀ i ∈ allIds st, 1 ≤ i ∧ i ≤ st.counter) ∧
  (∀ s ∈ st.stores, List.Chain' (· < ·) (s.users.map User.id))

/-! ### Dict lemmas -/

/-- Setting a key makes that key's lookup return the new value. -/
theorem dictGet_dictSet_self (d : Dict) (k : String) (v : PyVal) :
    dictGet (dictSet d k v) k = some v := by
  induction d with
  | nil => simp [dictSet, dictGet]
  | cons p rest ih =>
    obtain ⟨k', v'⟩ := p
    by_cases h : k' = k
    · simp [dictSet, dictGet, h]
    · simp [dictSet, dictGet, h, ih]

/-- Setting a key leaves every other key's lookup unchanged. -/
theorem dictGet_dictSet_ne (d : Dict) (k k' : String) (v : PyVal) (h : k' ≠ k) :
    dictGet (dictSet d k v) k' = dictGet d k' := by
  induction d with
  | nil => simp [dictSet, dictGet, Ne.symm h]
  | cons p rest ih =>
    obtain ⟨k₀, v₀⟩ := p
    by_cases hk : k₀ = k
    · subst hk
      simp [dictSet, dictGet, Ne.symm h]
    · simp [dictSet, dictGet, hk, ih]

/-- Setting the same key to the same value twice equals setting it once. -/
theorem dictSet_dictSet_self (d : Dict) (k : String) (v : PyVal) :
    dictSet (dictSet d k v) k v = dictSet d k v := by
  induction d with
  | nil => simp [dictSet]
  | cons p rest ih =>
    obtain ⟨k', v'⟩ := p
    by_cases h : k' = k
    · simp [dictSet, h]
    · simp [dictSet, h, ih]

/-! ### List decomposition helper -/

/-- An indexed element splits the list, and `set` replaces exactly it. -/
theorem set_decomp {α : Type} (l : List α) (i : Nat) (a : α) (h : l[i]? = some a) :
    ∃ l1 l2, l = l1 ++ a :: l2 ∧ l1.length = i ∧ ∀ b : α, l.set i b = l1 ++ b :: l2 := by
  induction l generalizing i with
  | nil => simp at h
  | cons x rest ih =>
    cases i with
    | zero =>
      simp at h
      subst h
      exact ⟨[], rest, rfl, rfl, fun b => rfl⟩
    | succ n =>
      simp at h
      obtain ⟨l1, l2, hdecomp, hlen, hset⟩ := ih n h
      refine ⟨x :: l1, l2, by simp [hdecomp], by simp [hlen], fun b => ?_⟩
      simp [List.set, hset b]

/-! ### Claim theorems: the record store -/

/-- C1: for every store state, name, and age ≥ 0, `add_user` succeeds, the
returned record carries exactly that name and age, its id is strictly greater
than every id previously assigned from the counter (all of which are at most
the counter's current value), the record is appended at the end of `users`,
and the counter is incremented by exactly one. -/
theorem add_user_valid (s : Service) (ctr : Nat) (nm : String) (age : Int)
    (prevIds : List Nat) (hprev : ∀ i ∈ prevIds, i ≤ ctr) (hage : 0 ≤ age) :
    ∃ u : User,
      add_user s ctr nm age = (Except.ok u, { s with users := s.users ++ [u] }, ctr + 1) ∧
      u.name = nm ∧ u.age = age ∧ u.id = ctr + 1 ∧ ∀ i ∈ prevIds, i < u.id := by
  refine ⟨{ name := nm, age := age, id := ctr + 1 }, ?_, rfl, rfl, rfl, ?_⟩
  · unfold add_user
    rw [if_neg (by omega)]
  · intro i hi
    exact Nat.lt_succ_of_le (hprev i hi)

/-- Witness for C1 at a concrete input. -/
theorem add_user_valid_witness :
    (∀ i ∈ [1, 2], i ≤ 2) ∧ (0 : Int) ≤ 30 ∧
      ∃ u : User,
        add_user Service.init 2 "alice" 30 =
          (Except.ok u, { Service.init with users := Service.init.users ++ [u] }, 3) ∧
        u.name = "alice" ∧ u.age = 30 ∧ u.id = 3 ∧ ∀ i ∈ [1, 2], i < u.id :=
  ⟨by decide, by decide,
    add_user_valid Service.init 2 "alice" 30 [1, 2] (by decide) (by decide)⟩

/-- C2: for every store state and name, a negative age makes `add_user` raise
`ValueError("Age cannot be negative")` with the store's collection and the
process-wide counter left unchanged. -/
theorem add_user_negative (s : Service) (ctr : Nat) (nm : String) (age : Int)
    (h : age < 0) :
    add_user s ctr nm age = (Except.error "Age cannot be negative", s, ctr) := by
  unfold add_user
  rw [if_pos h]

/-- Witness for C2 at a concrete input. -/
theorem add_user_negative_witness :
    ((-1 : Int) < 0) ∧
      add_user Service.init 0 "bob" (-1) =
        (Except.error "Age cannot be negative", Service.init, 0) :=
  ⟨by decide, add_user_negative Service.init 0 "bob" (-1) (by decide)⟩

/-- C6: `update_config(k, v)` stores `v` at `k` in the instance's own config
and in the process-wide cache, for every instance; afterwards a read of the
process-wide cache at `k` yields `v`, whichever (in-range) instance of the
process performed the update. -/
theorem update_config_cache_read (s : Service) (c : Dict) (k : String) (v : PyVal)
    (st : SysState) (i : Nat) (hi : i < st.stores.length) :
    dictGet (update_config s c k v).1.config k = some v ∧
    dictGet (update_config s c k v).2 k = some v ∧
    dictGet (sysUpdateConfig st i k v).cache k = some v := by
  refine ⟨dictGet_dictSet_self _ _ _, dictGet_dictSet_self _ _ _, ?_⟩
  have hs : st.stores[i]? = some st.stores[i] := List.getElem?_eq_getElem hi
  simp [sysUpdateConfig, hs, update_config, dictGet_dictSet_self]

/-- Witness for C6 at a concrete input. -/
theorem update_config_cache_read_witness :
    0 < (SysState.init.stores ++ [Service.init]).length ∧
      dictGet (update_config Service.init [] "k" (PyVal.int 7)).1.config "k" =
        some (PyVal.int 7) ∧
      dictGet (update_config Service.init [] "k" (PyVal.int 7)).2 "k" =
        some (PyVal.int 7) ∧
      dictGet (sysUpdateConfig (sysNewStore SysState.init) 0 "k" (PyVal.int 7)).cache "k" =
        some (PyVal.int 7) :=
  ⟨by decide,
    update_config_cache_read Service.init [] "k" (PyVal.int 7)
      (sysNewStore SysState.init) 0 (by decide)⟩

/-- C7: calling `update_config(k, v)` twice in succession leaves the store's
config and the process-wide cache exactly as calling it once. -/
theorem update_config_idem (s : Service) (c : Dict) (k : String) (v : PyVal) :
    update_config (update_config s c k v).1 (update_config s c k v).2 k v =
      update_config s c k v := by
  simp [update_config, dictSet_dictSet_self]

/-- C9: `update_config(k, v)` changes nothing but key `k`: every other key
keeps its value in the instance's config and in the process-wide cache, the
users collection of every instance is untouched, and the process-wide counter
is untouched. -/
theorem update_config_frame (s : Service) (c : Dict) (k k' : String) (v : PyVal)
    (st : SysState) (i : Nat) (h : k' ≠ k) :
    (update_config s c k v).1.users = s.users ∧
    dictGet (update_config s c k v).1.config k' = dictGet s.config k' ∧
    dictGet (update_config s c k v).2 k' = dictGet c k' ∧
    (sysUpdateConfig st i k v).counter = st.counter ∧
    (sysUpdateConfig st i k v).stores.map Service.users = st.stores.map Service.users := by
  refine ⟨rfl, dictGet_dictSet_ne _ _ _ _ h, dictGet_dictSet_ne _ _ _ _ h, ?_, ?_⟩
  · cases hs : st.stores[i]? with
    | none => simp [sysUpdateConfig, hs]
    | some s₀ => simp [sysUpdateConfig, hs]
  · cases hs : st.stores[i]? with
    | none => simp [sysUpdateConfig, hs]
    | some s₀ =>
      obtain ⟨l1, l2, hd, _, hset⟩ := set_decomp _ _ _ hs
      simp only [sysUpdateConfig, hs, update_config]
      rw [hset, hd]
      simp

/-- Witness for C9 at a concrete input. -/
theorem update_config_frame_witness :
    ("other" ≠ "k") ∧
      ((update_config Service.init [("other", PyVal.int 1)] "k" (PyVal.int 7)).1.users =
          Service.init.users ∧
        dictGet (update_config Service.init [("other", PyVal.int 1)] "k"
            (PyVal.int 7)).1.config "other" = dictGet Service.init.config "other" ∧
        dictGet (update_config Service.init [("other", PyVal.int 1)] "k"
            (PyVal.int 7)).2 "other" = dictGet [("other", PyVal.int 1)] "other" ∧
        (sysUpdateConfig (sysNewStore SysState.init) 0 "k" (PyVal.int 7)).counter =
          (sysNewStore SysState.init).counter ∧
        (sysUpdateConfig (sysNewStore SysState.init) 0 "k" (PyVal.int 7)).stores.map
            Service.users = (sysNewStore SysState.init).stores.map Service.users) :=
  ⟨by decide,
    update_config_frame Service.init [("other", PyVal.int 1)] "k" "other" (PyVal.int 7)
      (sysNewStore SysState.init) 0 (by decide)⟩

/-- C10: `add_user` fails exactly when `age < 0`; the name is never validated,
so for any `age ≥ 0` the call succeeds for every name — the empty string and
names already present included — appending the new record as a separate entry. -/
theorem add_user_validation (s : Service) (ctr : Nat) (nm : String) (age : Int) :
    ((∃ e, (add_user s ctr nm age).1 = Except.error e) ↔ age < 0) ∧
    (0 ≤ age →
      add_user s ctr nm age =
        (Except.ok { name := nm, age := age, id := ctr + 1 },
          { s with users := s.users ++ [{ name := nm, age := age, id := ctr + 1 }] },
          ctr + 1)) := by
  constructor
  · constructor
    · rintro ⟨e, he⟩
      by_contra hnot
      push_neg at hnot
      unfold add_user at he
      rw [if_neg (by omega)] at he
      exact Except.noConfusion he
    · intro h
      refine ⟨"Age cannot be negative", ?_⟩
      unfold add_user
      rw [if_pos h]
  · intro h
    unfold add_user
    rw [if_neg (by omega)]

/-- Witness for C10: adding a duplicate name succeeds and is stored as a
separate record. -/
theorem add_user_validation_witness :
    (0 : Int) ≤ 5 ∧
      add_user { users := [{ name := "bob", age := 1, id := 1 }], config := [] }
          1 "bob" 5 =
        (Except.ok { name := "bob", age := 5, id := 2 },
          { users := [{ name := "bob", age := 1, id := 1 },
                      { name := "bob", age := 5, id := 2 }],
            config := [] },
          2) :=
  ⟨by decide,
    (add_user_validation { users := [{ name := "bob", age := 1, id := 1 }], config := [] }
        1 "bob" 5).2 (by decide)⟩

/-! ### find_user lemmas -/

/-- The scan returns `none` exactly when no record's name matches. -/
theorem findFirst_none_iff (l : List User) (n : String) :
    findFirst l n = none ↔ ∀ u ∈ l, u.name ≠ n := by
  induction l with
  | nil => simp [findFirst]
  | cons v rest ih =>
    by_cases hv : v.name = n
    · simp [findFirst, hv]
    · simp [findFirst, hv, ih]

/-- The scan returns `some u` exactly when `u` is the first record (in list
order) whose name matches. -/
theorem findFirst_some_iff (l : List User) (n : String) (u : User) :
    findFirst l n = some u ↔
      u.name = n ∧ ∃ l1 l2, l = l1 ++ u :: l2 ∧ ∀ w ∈ l1, w.name ≠ n := by
  induction l with
  | nil => simp [findFirst]
  | cons v rest ih =>
    by_cases hv : v.name = n
    · simp only [findFirst, if_pos hv, Option.some.injEq]
      constructor
      · rintro rfl
        exact ⟨hv, [], rest, rfl, by simp⟩
      · rintro ⟨hn, l1, l2, hdec, hnone⟩
        cases l1 with
        | nil =>
          simp only [List.nil_append, List.cons.injEq] at hdec
          exact hdec.1
        | cons w l1' =>
          simp only [List.cons_append, List.cons.injEq] at hdec
          exact absurd (hdec.1 ▸ hv) (hnone w (by simp))
    · simp only [findFirst, if_neg hv]
      rw [ih]
      constructor
      · rintro ⟨hn, l1, l2, hdec, hnone⟩
        refine ⟨hn, v :: l1, l2, by simp [hdec], ?_⟩
        intro w hw
        rcases List.mem_cons.mp hw with h1 | h2
        · subst h1; exact hv
        · exact hnone w h2
      · rintro ⟨hn, l1, l2, hdec, hnone⟩
        cases l1 with
        | nil =>
          simp only [List.nil_append, List.cons.injEq] at hdec
          exact absurd (hdec.1 ▸ hn) hv
        | cons w l1' =>
          simp only [List.cons_append, List.cons.injEq] at hdec
          exact ⟨hn, l1', l2, hdec.2, fun x hx => hnone x (List.mem_cons_of_mem _ hx)⟩

/-- C5: `find_user(name)` returns the first record in insertion order whose
name equals the argument exactly, and `None` when no record matches.  The
source method only reads `self.users`; its embedding is a pure function of the
state, so it leaves the collection, config, cache and counter unchanged by
construction. -/
theorem find_user_spec (s : Service) (n : String) :
    (find_user s n = none ↔ ∀ u ∈ s.users, u.name ≠ n) ∧
    (∀ u : User, find_user s n = some u ↔
      u.name = n ∧ ∃ l1 l2, s.users = l1 ++ u :: l2 ∧ ∀ w ∈ l1, w.name ≠ n) :=
  ⟨findFirst_none_iff s.users n, fun u => findFirst_some_iff s.users n u⟩

/-! ### Claim theorems: the batch transformer -/

/-- C3: `process_data` is total (it returns on every input, as the embedding's
type shows: every per-item failure is converted to a log entry); its result is
exactly the successfully doubled items in input order, each failing item
contributes exactly one diagnostic log entry in input order, and the result is
never longer than the input. -/
theorem process_data_isolates (items : List PyVal) :
    (process_data items).1 = items.filterMap (fun i => (pyMul2 i).toOption) ∧
    (process_data items).2 =
      items.filterMap (fun i =>
        match pyMul2 i with
        | Except.ok _ => none
        | Except.error e => some (logEntry i e)) ∧
    (process_data items).1.length ≤ items.length := by
  induction items with
  | nil => simp [process_data]
  | cons item rest ih =>
    obtain ⟨ih1, ih2, ih3⟩ := ih
    cases hm : pyMul2 item with
    | ok r =>
      refine ⟨?_, ?_, ?_⟩
      · simp [process_data, hm, Except.toOption, ih1]
      · simp [process_data, hm, ih2]
      · simp only [process_data, hm, List.length_cons]
        exact Nat.succ_le_succ ih3
    | error e =>
      refine ⟨?_, ?_, ?_⟩
      · simp [process_data, hm, Except.toOption, ih1]
      · simp [process_data, hm, ih2]
      · simp only [process_data, hm, List.length_cons]
        exact Nat.le_succ_of_le ih3

/-- On a list of ints, `process_data` doubles every element. -/
theorem process_data_all_int (items : List PyVal)
    (h : ∀ x ∈ items, ∃ n : Int, x = PyVal.int n) :
    (process_data items).1 =
      items.map (fun x => match x with
        | PyVal.int n => PyVal.int (n * 2)
        | y => y) := by
  induction items with
  | nil => rfl
  | cons x rest ih =>
    obtain ⟨n, rfl⟩ := h x (by simp)
    have hrest := ih (fun y hy => h y (by simp [hy]))
    simp [process_data, pyMul2, hrest]

/-- C4: `process_data([1, 2, 3])` returns `[2, 4, 6]`, and on any all-number
input it returns each element doubled, in order, with the same length. -/
theorem process_data_numbers (items : List PyVal)
    (h : ∀ x ∈ items, ∃ n : Int, x = PyVal.int n) :
    (process_data [PyVal.int 1, PyVal.int 2, PyVal.int 3]).1 =
      [PyVal.int 2, PyVal.int 4, PyVal.int 6] ∧
    (process_data items).1 =
      items.map (fun x => match x with
        | PyVal.int n => PyVal.int (n * 2)
        | y => y) ∧
    (process_data items).1.length = items.length := by
  refine ⟨by decide, process_data_all_int items h, ?_⟩
  rw [process_data_all_int items h]
  exact List.length_map _ _

/-- Witness for C4 at the concrete input `[1, 2, 3]`. -/
theorem process_data_numbers_witness :
    (∀ x ∈ [PyVal.int 1, PyVal.int 2, PyVal.int 3], ∃ n : Int, x = PyVal.int n) ∧
      ((process_data [PyVal.int 1, PyVal.int 2, PyVal.int 3]).1 =
          [PyVal.int 2, PyVal.int 4, PyVal.int 6] ∧
        (process_data [PyVal.int 1, PyVal.int 2, PyVal.int 3]).1 =
          [PyVal.int 1, PyVal.int 2, PyVal.int 3].map (fun x => match x with
            | PyVal.int n => PyVal.int (n * 2)
            | y => y) ∧
        (process_data [PyVal.int 1, PyVal.int 2, PyVal.int 3]).1.length =
          [PyVal.int 1, PyVal.int 2, PyVal.int 3].length) := by
  have h : ∀ x ∈ [PyVal.int 1, PyVal.int 2, PyVal.int 3], ∃ n : Int, x = PyVal.int n := by
    intro x hx
    simp only [List.mem_cons, List.not_mem_nil, or_false] at hx
    rcases hx with rfl | rfl | rfl
    · exact ⟨1, rfl⟩
    · exact ⟨2, rfl⟩
    · exact ⟨3, rfl⟩
  exact ⟨h, process_data_numbers [PyVal.int 1, PyVal.int 2, PyVal.int 3] h⟩

/-! ### The reachability invariant -/

/-- A member of `getLast?` is a member of the list. -/
theorem mem_of_mem_getLastQ {α : Type} {l : List α} {x : α} (h : x ∈ l.getLast?) :
    x ∈ l := by
  obtain ⟨hne, rfl⟩ := List.mem_getLast?_eq_getLast h
  exact List.getLast_mem hne

/-- An id of a record of a member store is in `allIds`. -/
theorem mem_allIds_of (st : SysState) {s : Service} (hs : s ∈ st.stores) {a : Nat}
    (ha : a ∈ s.users.map User.id) : a ∈ allIds st :=
  List.mem_flatMap.mpr ⟨s, hs, ha⟩

/-- `allIds` over a decomposed store list. -/
theorem allIds_decomp (st : SysState) (l1 l2 : List Service) (s₀ : Service)
    (hd : st.stores = l1 ++ s₀ :: l2) :
    allIds st =
      l1.flatMap (fun s => s.users.map User.id) ++
        (s₀.users.map User.id ++ l2.flatMap (fun s => s.users.map User.id)) := by
  simp [allIds, hd]

/-- The initial process state satisfies the invariant. -/
theorem storeInv_init : StoreInv SysState.init := by
  refine ⟨?_, ?_, ?_, ?_⟩ <;> simp [StoreInv, allIds, SysState.init]

/-- Constructing a new (empty) store preserves the invariant. -/
theorem storeInv_newStore (st : SysState) (h : StoreInv st) :
    StoreInv (sysNewStore st) := by
  obtain ⟨hAge, hNodup, hBound, hChain⟩ := h
  have hids : allIds (sysNewStore st) = allIds st := by
    simp [allIds, sysNewStore, Service.init]
  refine ⟨?_, ?_, ?_, ?_⟩
  · intro s hs u hu
    rcases List.mem_append.mp hs with h1 | h2
    · exact hAge s h1 u hu
    · simp only [List.mem_singleton] at h2
      subst h2
      simp [Service.init] at hu
  · rw [hids]; exact hNodup
  · intro i hi
    rw [hids] at hi
    exact hBound i hi
  · intro s hs
    rcases List.mem_append.mp hs with h1 | h2
    · exact hChain s h1
    · simp only [List.mem_singleton] at h2
      subst h2
      simp [Service.init]

/-- `update_config` (through any instance) preserves the invariant. -/
theorem storeInv_updateConfig (st : SysState) (i : Nat) (k : String) (v : PyVal)
    (h : StoreInv st) : StoreInv (sysUpdateConfig st i k v) := by
  cases hs : st.stores[i]? with
  | none =>
    have heq : sysUpdateConfig st i k v = st := by simp [sysUpdateConfig, hs]
    rw [heq]; exact h
  | some s₀ =>
    obtain ⟨l1, l2, hd, hlen, hset⟩ := set_decomp _ _ _ hs
    have heq : sysUpdateConfig st i k v =
        SysState.mk (l1 ++ { s₀ with config := dictSet s₀.config k v } :: l2)
          (dictSet st.cache k v) st.counter := by
      simp [sysUpdateConfig, hs, update_config, hset]
    obtain ⟨hAge, hNodup, hBound, hChain⟩ := h
    rw [heq]
    have hids : allIds (SysState.mk
          (l1 ++ { s₀ with config := dictSet s₀.config k v } :: l2)
          (dictSet st.cache k v) st.counter) = allIds st := by
      rw [allIds_decomp st l1 l2 s₀ hd]
      simp [allIds]
    refine ⟨?_, ?_, ?_, ?_⟩
    · intro s hs' u hu
      rcases List.mem_append.mp hs' with h1 | h2
      · exact hAge s (by rw [hd]; exact List.mem_append_left _ h1) u hu
      · rcases List.mem_cons.mp h2 with h3 | h4
        · subst h3
          exact hAge s₀ (by rw [hd]; simp) u hu
        · exact hAge s (by rw [hd]; simp [h4]) u hu
    · rw [hids]; exact hNodup
    · intro j hj
      rw [hids] at hj
      exact hBound j hj
    · intro s hs'
      rcases List.mem_append.mp hs' with h1 | h2
      · exact hChain s (by rw [hd]; exact List.mem_append_left _ h1)
      · rcases List.mem_cons.mp h2 with h3 | h4
        · subst h3
          exact hChain s₀ (by rw [hd]; simp)
        · exact hChain s (by rw [hd]; simp [h4])

/-- `add_user` (through any instance) preserves the invariant. -/
theorem storeInv_addUser (st : SysState) (i : Nat) (nm : String) (age : Int)
    (h : StoreInv st) : StoreInv (sysAddUser st i nm age) := by
  cases hs : st.stores[i]? with
  | none =>
    have heq : sysAddUser st i nm age = st := by simp [sysAddUser, hs]
    rw [heq]; exact h
  | some s₀ =>
    obtain ⟨l1, l2, hd, hlen, hset⟩ := set_decomp _ _ _ hs
    by_cases hage : age < 0
    · have heq : sysAddUser st i nm age = st := by
        simp [sysAddUser, hs, add_user, if_pos hage, hset, ← hd]
      rw [heq]; exact h
    · have heq : sysAddUser st i nm age =
          SysState.mk
            (l1 ++
              { s₀ with users :=
                  s₀.users ++ [{ name := nm, age := age, id := st.counter + 1 }] } :: l2)
            st.cache (st.counter + 1) := by
        simp [sysAddUser, hs, add_user, if_neg hage, hset]
      obtain ⟨hAge, hNodup, hBound, hChain⟩ := h
      rw [heq]
      have hold : allIds st =
          l1.flatMap (fun s => s.users.map User.id) ++
            (s₀.users.map User.id ++ l2.flatMap (fun s => s.users.map User.id)) :=
        allIds_decomp st l1 l2 s₀ hd
      have hnew : allIds (SysState.mk
            (l1 ++
              { s₀ with users :=
                  s₀.users ++ [{ name := nm, age := age, id := st.counter + 1 }] } :: l2)
            st.cache (st.counter + 1)) =
          l1.flatMap (fun s => s.users.map User.id) ++
            (s₀.users.map User.id ++
              ((st.counter + 1) :: l2.flatMap (fun s => s.users.map User.id))) := by
        simp [allIds]
      have hperm : (l1.flatMap (fun s => s.users.map User.id) ++
            (s₀.users.map User.id ++
              ((st.counter + 1) :: l2.flatMap (fun s => s.users.map User.id)))).Perm
          ((st.counter + 1) :: allIds st) := by
        rw [hold]
        have p1 : (s₀.users.map User.id ++
              ((st.counter + 1) :: l2.flatMap (fun s => s.users.map User.id))).Perm
            ((st.counter + 1) ::
              (s₀.users.map User.id ++ l2.flatMap (fun s => s.users.map User.id))) :=
          List.perm_middle
        have p2 := p1.append_left (l1.flatMap (fun s => s.users.map User.id))
        have p3 : (l1.flatMap (fun s => s.users.map User.id) ++
              ((st.counter + 1) ::
                (s₀.users.map User.id ++
                  l2.flatMap (fun s => s.users.map User.id)))).Perm
            ((st.counter + 1) ::
              (l1.flatMap (fun s => s.users.map User.id) ++
                (s₀.users.map User.id ++
                  l2.flatMap (fun s => s.users.map User.id)))) :=
          List.perm_middle
        exact p2.trans p3
      refine ⟨?_, ?_, ?_, ?_⟩
      · intro s hs' w hw
        rcases List.mem_append.mp hs' with h1 | h2
        · exact hAge s (by rw [hd]; exact List.mem_append_left _ h1) w hw
        · rcases List.mem_cons.mp h2 with h3 | h4
          · subst h3
            have hw' : w ∈ s₀.users ++ [{ name := nm, age := age, id := st.counter + 1 }] :=
              hw
            rcases List.mem_append.mp hw' with hw1 | hw2
            · exact hAge s₀ (by rw [hd]; simp) w hw1
            · simp only [List.mem_singleton] at hw2
              subst hw2
              simp only [User.mk.injEq]
              omega
          · exact hAge s (by rw [hd]; simp [h4]) w hw
      · rw [hnew, hperm.nodup_iff]
        refine List.nodup_cons.mpr ⟨?_, hNodup⟩
        intro hmem
        have := (hBound _ hmem).2
        omega
      · intro j hj
        rw [hnew] at hj
        have hj' := hperm.mem_iff.mp hj
        show 1 ≤ j ∧ j ≤ st.counter + 1
        rcases List.mem_cons.mp hj' with h1 | h2
        · omega
        · have := hBound j h2
          omega
      · intro s hs'
        rcases List.mem_append.mp hs' with h1 | h2
        · exact hChain s (by rw [hd]; exact List.mem_append_left _ h1)
        · rcases List.mem_cons.mp h2 with h3 | h4
          · subst h3
            show List.Chain' (· < ·)
              ((s₀.users ++ [User.mk nm age (st.counter + 1)]).map User.id)
            rw [List.map_append, List.chain'_append]
            refine ⟨hChain s₀ (by rw [hd]; simp), by simp, ?_⟩
            intro x hx y hy
            have hxmem : x ∈ s₀.users.map User.id := mem_of_mem_getLastQ hx
            have hxb := (hBound x (mem_allIds_of st (by rw [hd]; simp) hxmem)).2
            simp only [List.map_cons, List.map_nil, List.head?_cons, Option.mem_some_iff] at hy
            subst hy
            show x < st.counter + 1
            omega
          · exact hChain s (by rw [hd]; simp [h4])

/-- C8: every reachable process state satisfies the record-store invariant:
every stored record has age ≥ 0, ids are unique across all records of all
stores, each id is positive and at most the shared counter (so ids are
assigned in strictly increasing order from it), and within each store ids
strictly increase in creation order. -/
theorem reachable_storeInv (st : SysState) (h : Reachable st) : StoreInv st := by
  induction h with
  | init => exact storeInv_init
  | newStore _ ih => exact storeInv_newStore _ ih
  | addUser i name age _ ih => exact storeInv_addUser _ i name age ih
  | updateConfig i k v _ ih => exact storeInv_updateConfig _ i k v ih

/-- Witness for C8 at a concrete reachable state. -/
theorem reachable_storeInv_witness :
    Reachable (sysAddUser (sysNewStore SysState.init) 0 "alice" 30) ∧
      StoreInv (sysAddUser (sysNewStore SysState.init) 0 "alice" 30) :=
  ⟨Reachable.addUser 0 "alice" 30 (Reachable.newStore Reachable.init),
    reachable_storeInv _ (Reachable.addUser 0 "alice" 30 (Reachable.newStore Reachable.init))⟩
